import Mathlib

/-!
Shallow embedding of the rank-order reassembly utility of the repository
(notebook `InteractiveMPI.ipynb`).  The source code is:

  ranks = view['rank']
  rank_indices = np.argsort(ranks)

  def mpi_order(seq):
      """Return elements of a sequence ordered by MPI rank.

      The input sequence is assumed to be ordered by engine ID."""
      return [seq[x] for x in rank_indices]

`np.argsort(ranks)` returns the list of indices of `ranks` sorted by their
value in `ranks` (ascending); on inputs without duplicate values ties never
arise, so the result is independent of the sorting algorithm and we model it
with insertion sort over the index list `[0, ..., N-1]`.  `mpi_order` is a
Python list comprehension whose indexing `seq[x]` raises `IndexError` when
`x` is out of range (argsort indices are never negative); we model failure
with `Option`, returning `none` exactly when some index is out of range.
-/

namespace InteractiveMPI

/-- Embedding of `rank_indices = np.argsort(ranks)`: the list of positions
of `ranks`, sorted ascending by the rank value stored at each position. -/
def rank_indices (ranks : List Nat) : List Nat :=
  List.insertionSort (fun i j => ranks.getD i 0 ≤ ranks.getD j 0)
    (List.range ranks.length)

/-- Embedding of `def mpi_order(seq): return [seq[x] for x in rank_indices]`,
with the captured global `rank_indices` made an explicit argument.  Python
indexing `seq[x]` fails (IndexError) when `x` is out of range, which the
`Option` result records as `none`. -/
def mpi_order {α : Type*} (seq : List α) : List Nat → Option (List α)
  | [] => some []
  | x :: xs =>
    match seq.get? x with
    | none => none
    | some v =>
      match mpi_order seq xs with
      | none => none
      | some vs => some (v :: vs)

/-- The argsort result is a permutation of the positions `[0, N)`. -/
theorem rank_indices_perm (ranks : List Nat) :
    (rank_indices ranks).Perm (List.range ranks.length) :=
  List.perm_insertionSort _ _

/-- The argsort result has the same length as its input. -/
theorem rank_indices_length (ranks : List Nat) :
    (rank_indices ranks).length = ranks.length := by
  simpa using (rank_indices_perm ranks).length_eq

/-- Every entry of the argsort result is a valid position of `ranks`. -/
theorem mem_rank_indices_lt (ranks : List Nat) {x : Nat}
    (hx : x ∈ rank_indices ranks) : x < ranks.length :=
  List.mem_range.mp ((rank_indices_perm ranks).subset hx)

/-- Reading every position of a list (with any default) reproduces the list. -/
theorem map_getD_range {α : Type*} (l : List α) (d : α) :
    (List.range l.length).map (fun i => l.getD i d) = l := by
  apply List.ext_getElem
  · simp
  · intro i h1 h2
    simp [List.getD_eq_getElem l d h2, List.getElem?_eq_getElem h2]

/-- `mpi_order` fails exactly when some index is out of range for `seq`. -/
theorem mpi_order_eq_none_iff {α : Type*} (seq : List α) (ri : List Nat) :
    mpi_order seq ri = none ↔ ∃ x ∈ ri, seq.length ≤ x := by
  induction ri with
  | nil => simp [mpi_order]
  | cons x xs ih =>
    rcases Nat.lt_or_ge x seq.length with hx | hx
    · have hsome : seq.get? x = some seq[x] := by
        simp [List.get?_eq_getElem?, List.getElem?_eq_getElem hx]
      rw [mpi_order, hsome]
      cases hrec : mpi_order seq xs with
      | none =>
        simp only [hrec, iff_true_intro (ih.mp hrec)]
        simp [ih.mp hrec]
      | some vs =>
        have hnone : ¬ ∃ y ∈ xs, seq.length ≤ y := by
          intro hy
          rw [← ih] at hy
          simp [hy] at hrec
        simp only [hrec]
        constructor
        · intro h
          exact absurd h (by simp)
        · rintro ⟨y, hy, hley⟩
          rcases List.mem_cons.mp hy with rfl | hy2
          · exact absurd hx (Nat.not_lt_of_ge hley)
          · exact absurd ⟨y, hy2, hley⟩ hnone
    · have hnone : seq.get? x = none := by
        simp [List.get?_eq_getElem?, List.getElem?_eq_none hx]
      rw [mpi_order, hnone]
      exact ⟨fun _ => ⟨x, List.mem_cons_self x xs, hx⟩, fun _ => rfl⟩

/-- When every index is in range, `mpi_order` succeeds and returns exactly
the list of looked-up elements. -/
theorem mpi_order_eq_map {α : Type*} (seq : List α) (d : α) :
    ∀ (ri : List Nat), (∀ x ∈ ri, x < seq.length) →
      mpi_order seq ri = some (ri.map fun x => seq.getD x d)
  | [], _ => rfl
  | x :: xs, h => by
    have hx : x < seq.length := h x (List.mem_cons_self x xs)
    have hxs : ∀ y ∈ xs, y < seq.length := fun y hy => h y (List.mem_cons_of_mem x hy)
    have hsome : seq.get? x = some (seq.getD x d) := by
      simp [List.get?_eq_getElem?, List.getElem?_eq_getElem hx,
        List.getD_eq_getElem seq d hx]
    rw [mpi_order, hsome, mpi_order_eq_map seq d xs hxs, List.map_cons]

/-- When the ranks are a permutation of `[0, N)`, reading the rank value at
each argsort position, in order, yields `0, 1, ..., N-1`: the argsort sorts
the ranks ascending. -/
theorem rank_indices_map_key (ranks : List Nat)
    (h : ranks.Perm (List.range ranks.length)) :
    (rank_indices ranks).map (fun i => ranks.getD i 0) = List.range ranks.length := by
  set r := fun i j => ranks.getD i 0 ≤ ranks.getD j 0 with hr
  haveI : IsTotal Nat r := ⟨fun a b => Nat.le_total _ _⟩
  haveI : IsTrans Nat r := ⟨fun a b c hab hbc => Nat.le_trans hab hbc⟩
  have hsorted : List.Sorted r (rank_indices ranks) :=
    List.sorted_insertionSort r (List.range ranks.length)
  have hsortedM : List.Sorted (· ≤ ·) ((rank_indices ranks).map fun i => ranks.getD i 0) :=
    List.pairwise_map.mpr hsorted
  have hpermR : ((rank_indices ranks).map fun i => ranks.getD i 0).Perm ranks := by
    have hp := (rank_indices_perm ranks).map (fun i => ranks.getD i 0)
    rwa [map_getD_range ranks 0] at hp
  exact List.eq_of_perm_of_sorted (hpermR.trans h) hsortedM (List.pairwise_le_range _)

/-- Pointwise form of `rank_indices_map_key`: at every position `k < N` the
selected worker's rank is exactly `k`. -/
theorem rank_indices_getD (ranks : List Nat)
    (h : ranks.Perm (List.range ranks.length)) {k : Nat} (hk : k < ranks.length) :
    ranks.getD ((rank_indices ranks).getD k 0) 0 = k := by
  have hlen : k < (rank_indices ranks).length := by
    rw [rank_indices_length]; exact hk
  have hmap := congrArg (fun l => l[k]?) (rank_indices_map_key ranks h)
  simp only [List.getElem?_map, List.getElem?_range hk,
    List.getElem?_eq_getElem hlen, Option.map_some'] at hmap
  rw [List.getD_eq_getElem _ _ hlen]
  exact Option.some.inj hmap

/-- Each successful `mpi_order` output reads, at position `k`, the element of
`seq` at position `rank_index[k]`. -/
theorem mpi_order_getD {α : Type*} (seq : List α) (ri : List Nat)
    (hin : ∀ x ∈ ri, x < seq.length) {res : List α}
    (hres : mpi_order seq ri = some res) {k : Nat} (hk : k < ri.length) (d : α) :
    res.getD k d = seq.getD (ri.getD k 0) d := by
  have hmap := (mpi_order_eq_map seq d ri hin).symm.trans hres
  have hres2 : res = ri.map fun x => seq.getD x d := (Option.some.inj hmap).symm
  subst hres2
  have hk2 : k < (ri.map fun x => seq.getD x d).length := by simpa using hk
  rw [List.getD_eq_getElem _ _ hk2, List.getElem_map, List.getD_eq_getElem ri 0 hk]

section Claims

/-- C1: for every `ranks` of length N whose values are a permutation of
`[0, N)`, `rank_indices ranks` (the embedding of `np.argsort(ranks)`, the
spec's `build_rank_index`) has length N and its k-th entry is the unique
index i with `ranks[i] = k`: the argsort permutation that sorts `ranks`
ascending. -/
theorem claim_C1 (ranks : List Nat) (h : ranks.Perm (List.range ranks.length)) :
    (rank_indices ranks).length = ranks.length ∧
    ∀ k, k < ranks.length →
      ranks.getD ((rank_indices ranks).getD k 0) 0 = k ∧
      ∀ i, i < ranks.length → ranks.getD i 0 = k → i = (rank_indices ranks).getD k 0 := by
  refine ⟨rank_indices_length ranks, fun k hk => ⟨rank_indices_getD ranks h hk, ?_⟩⟩
  intro i hi hik
  have hnd : ranks.Nodup := (List.Perm.nodup_iff h).mpr (List.nodup_range _)
  have hklen : k < (rank_indices ranks).length := by
    rw [rank_indices_length]; exact hk
  have hmem : (rank_indices ranks).getD k 0 ∈ rank_indices ranks := by
    rw [List.getD_eq_getElem _ 0 hklen]; exact List.getElem_mem hklen
  have hlt : (rank_indices ranks).getD k 0 < ranks.length := mem_rank_indices_lt ranks hmem
  have hval : ranks.getD ((rank_indices ranks).getD k 0) 0 = k := rank_indices_getD ranks h hk
  have hinj := List.nodup_iff_injective_getElem.mp hnd
  have heq : ranks[i] = ranks[(rank_indices ranks).getD k 0] := by
    rw [← List.getD_eq_getElem ranks 0 hi, ← List.getD_eq_getElem ranks 0 hlt, hik, hval]
  have hfin := hinj (show (fun j : Fin ranks.length => ranks[j.1]) ⟨i, hi⟩ =
    (fun j : Fin ranks.length => ranks[j.1]) ⟨(rank_indices ranks).getD k 0, hlt⟩ from heq)
  exact congrArg Fin.val hfin

/-- C1 witness: concrete instantiation at ranks = [1, 0]. -/
theorem claim_C1_witness :
    (rank_indices [1, 0]).length = 2 ∧
    [1, 0].getD ((rank_indices [1, 0]).getD 0 0) 0 = 0 :=
  ⟨(claim_C1 [1, 0] (by decide)).1, ((claim_C1 [1, 0] (by decide)).2 0 (by decide)).1⟩

/-- C2: when the lengths agree and every index is in range, `mpi_order`
(the spec's `reorder`) succeeds with a result of the same length satisfying
`result[k] = values[rank_index[k]]`.  Purity and determinism are intrinsic
to the embedding: `mpi_order` is a Lean function of its two arguments. -/
theorem claim_C2 {α : Type*} (values : List α) (ri : List Nat)
    (hlen : values.length = ri.length)
    (hin : ∀ x ∈ ri, x < values.length) :
    ∃ res, mpi_order values ri = some res ∧ res.length = values.length ∧
      ∀ k d, k < ri.length → res.getD k d = values.getD (ri.getD k 0) d := by
  cases ri with
  | nil =>
    refine ⟨[], rfl, by simpa using hlen.symm, ?_⟩
    intro k d hk
    exact absurd hk (by simp)
  | cons x xs =>
    have hx := hin x (List.mem_cons_self x xs)
    have hpos : 0 < values.length := Nat.lt_of_le_of_lt (Nat.zero_le x) hx
    refine ⟨(x :: xs).map fun y => values.getD y (values.get ⟨0, hpos⟩),
      mpi_order_eq_map values _ _ hin, by rw [List.length_map, hlen], ?_⟩
    intro k d hk
    exact mpi_order_getD values (x :: xs) hin (mpi_order_eq_map values _ _ hin) hk d

/-- C2 witness: concrete instantiation at values = [10, 20], rank index [1, 0]. -/
theorem claim_C2_witness :
    ∃ res, mpi_order [10, 20] [1, 0] = some res ∧ res.length = 2 ∧
      ∀ k d, k < 2 → res.getD k d = [10, 20].getD ([1, 0].getD k 0) d :=
  claim_C2 [10, 20] [1, 0] (by decide) (by decide)

/-- C3: round trip.  For every permutation P of `[0, N)`, reordering P by
its own argsort yields `[0, 1, ..., N-1]`: `rank_indices` computes the
inverse permutation of P. -/
theorem claim_C3 (P : List Nat) (h : P.Perm (List.range P.length)) :
    mpi_order P (rank_indices P) = some (List.range P.length) := by
  have hin : ∀ x ∈ rank_indices P, x < P.length := fun x hx => mem_rank_indices_lt P hx
  rw [mpi_order_eq_map P 0 (rank_indices P) hin, rank_indices_map_key P h]

/-- C3 witness: concrete instantiation at P = [2, 0, 1]. -/
theorem claim_C3_witness :
    mpi_order [2, 0, 1] (rank_indices [2, 0, 1]) = some (List.range 3) :=
  claim_C3 [2, 0, 1] (by decide)

/-- C4: multiset preservation.  When the rank index is a permutation of the
positions of `values`, `mpi_order` succeeds and its result is a permutation
of `values`: same elements, same multiplicities, nothing lost or
duplicated. -/
theorem claim_C4 {α : Type*} (values : List α) (ri : List Nat)
    (h : ri.Perm (List.range values.length)) :
    ∃ res, mpi_order values ri = some res ∧ res.Perm values := by
  cases values with
  | nil =>
    have hnil : ri = [] := by
      have h0 : ri.Perm [] := by simpa using h
      exact h0.eq_nil
    subst hnil
    exact ⟨[], rfl, List.Perm.refl []⟩
  | cons v vs =>
    have hin : ∀ x ∈ ri, x < (v :: vs).length := fun x hx => List.mem_range.mp (h.subset hx)
    refine ⟨ri.map fun y => (v :: vs).getD y v, mpi_order_eq_map _ v ri hin, ?_⟩
    have hp := h.map fun y => (v :: vs).getD y v
    rwa [map_getD_range (v :: vs) v] at hp

/-- C4 witness: concrete instantiation at values = [10, 20, 30] with the
rank index [2, 0, 1]. -/
theorem claim_C4_witness :
    ∃ res, mpi_order [10, 20, 30] [2, 0, 1] = some res ∧ res.Perm [10, 20, 30] :=
  claim_C4 [10, 20, 30] [2, 0, 1] (by decide)

/-- C5 counterexample: a length mismatch (|values| = 3, |rank_index| = 4)
on which `mpi_order` raises no error at all — it returns a result — refuting
the claim that every mismatch fails with LengthMismatchError.  The code has
no length check and no LengthMismatchError. -/
theorem claim_C5_counterexample :
    ([10, 20, 30] : List Nat).length ≠ ([0, 1, 2, 0] : List Nat).length ∧
    mpi_order ([10, 20, 30] : List Nat) [0, 1, 2, 0] = some [10, 20, 30, 10] :=
  ⟨by decide, rfl⟩

/-- C5 amended: `mpi_order` performs no length comparison; it fails — with
an index-out-of-range error, the only failure the code can produce — exactly
when some entry of the rank index is ≥ |values|, regardless of whether the
lengths match. -/
theorem claim_C5 {α : Type*} (seq : List α) (ri : List Nat) :
    mpi_order seq ri = none ↔ ∃ x ∈ ri, seq.length ≤ x :=
  mpi_order_eq_none_iff seq ri

/-- C6 counterexample: the ranks [0, 2] are not a permutation of [0, 2), yet
`rank_indices` returns [0, 1] without any error — refuting the claim that
malformed ranks fail with InvalidInputError.  The code never validates. -/
theorem claim_C6_counterexample :
    ¬ ([0, 2] : List Nat).Perm (List.range 2) ∧ rank_indices [0, 2] = [0, 1] :=
  ⟨by decide, by decide⟩

/-- C6 amended: on every `ranks` that is not a permutation of `[0, N)`,
`rank_indices` still returns normally, producing a list of length N (no
InvalidInputError exists in the code). -/
theorem claim_C6 (ranks : List Nat) (h : ¬ ranks.Perm (List.range ranks.length)) :
    (rank_indices ranks).length = ranks.length :=
  rank_indices_length ranks

/-- C6 witness: concrete instantiation at the non-permutation ranks [0, 2]. -/
theorem claim_C6_witness :
    ¬ ([0, 2] : List Nat).Perm (List.range 2) ∧ (rank_indices [0, 2]).length = 2 :=
  ⟨by decide, claim_C6 [0, 2] (by decide)⟩

/-- C7: identity.  When the ranks are already `[0, 1, ..., N-1]`, reordering
any `values` of length N by the argsort of those ranks returns `values`
unchanged (which covers the N = 1 and N = 3 scenarios of the spec). -/
theorem claim_C7 {α : Type*} (values : List α) (ranks : List Nat)
    (h : ranks = List.range values.length) :
    mpi_order values (rank_indices ranks) = some values := by
  subst h
  have hident : rank_indices (List.range values.length) = List.range values.length := by
    set r := fun i j => (List.range values.length).getD i 0 ≤
      (List.range values.length).getD j 0 with hr
    haveI : IsTotal Nat r := ⟨fun a b => Nat.le_total _ _⟩
    haveI : IsTrans Nat r := ⟨fun a b c hab hbc => Nat.le_trans hab hbc⟩
    have hsorted : List.Sorted r (List.range values.length) := by
      refine (List.pairwise_lt_range _).imp_of_mem ?_
      intro a b ha hb hab
      have ha2 : a < (List.range values.length).length := by
        simpa using List.mem_range.mp ha
      have hb2 : b < (List.range values.length).length := by
        simpa using List.mem_range.mp hb
      rw [hr]
      simp only []
      rw [List.getD_eq_getElem _ 0 ha2, List.getD_eq_getElem _ 0 hb2]
      simpa using Nat.le_of_lt hab
    unfold rank_indices
    rw [List.length_range]
    exact hsorted.insertionSort_eq
  rw [hident]
  have hin : ∀ x ∈ List.range values.length, x < values.length :=
    fun x hx => List.mem_range.mp hx
  cases values with
  | nil => rfl
  | cons v vs =>
    rw [mpi_order_eq_map (v :: vs) v _ hin, map_getD_range (v :: vs) v]

/-- C7 witness: concrete instantiation at N = 3, ranks = [0, 1, 2],
values = [5, 6, 7]. -/
theorem claim_C7_witness :
    mpi_order [5, 6, 7] (rank_indices [0, 1, 2]) = some [5, 6, 7] :=
  claim_C7 [5, 6, 7] [0, 1, 2] (by decide)

/-- C8: the concrete scenario of the spec: the argsort of [1, 3, 0, 2] is
[2, 0, 3, 1], and reordering the worker values by it yields
["w2", "w0", "w3", "w1"]. -/
theorem claim_C8 :
    rank_indices [1, 3, 0, 2] = [2, 0, 3, 1] ∧
    mpi_order ["w0", "w1", "w2", "w3"] [2, 0, 3, 1] =
      some ["w2", "w0", "w3", "w1"] :=
  ⟨by decide, rfl⟩

/-- C9: when `values` is strictly longer than the rank index but every index
is in range, `mpi_order` raises no error: it returns a result of length
|rank_index|, silently dropping the surplus values. -/
theorem claim_C9 {α : Type*} (values : List α) (ri : List Nat)
    (hlt : ri.length < values.length) (hin : ∀ x ∈ ri, x < values.length) :
    ∃ res, mpi_order values ri = some res ∧ res.length = ri.length := by
  have hpos : 0 < values.length := Nat.lt_of_le_of_lt (Nat.zero_le _) hlt
  exact ⟨ri.map fun y => values.getD y (values.get ⟨0, hpos⟩),
    mpi_order_eq_map values _ ri hin, by simp⟩

/-- C9 witness: concrete instantiation at four values and three indices. -/
theorem claim_C9_witness :
    ∃ res, mpi_order [10, 20, 30, 40] [0, 2, 1] = some res ∧ res.length = 3 :=
  claim_C9 [10, 20, 30, 40] [0, 2, 1] (by decide) (by decide)

/-- C10: `rank_indices` is total — on every integer sequence, permutation or
not, it returns without error — and its output is always a permutation of
the positions `[0, N)`. -/
theorem claim_C10 (ranks : List Nat) :
    (rank_indices ranks).Perm (List.range ranks.length) :=
  rank_indices_perm ranks

end Claims

end InteractiveMPI
